import Mathlib

/-!
Verification of the instance-manager core of the Legion runtime
(src/runtime/legion/legion_instances.h): the CollectiveMapping spanning-tree
arithmetic, distributed-identifier flag encoding, the garbage-collection
state machine, the rendezvous bookkeeping for collective user registration,
and the small inline helpers of InstanceManager.

Machine integers (DistributedID is 64-bit, unsigned is 32-bit) are modelled
as Nat with explicit reduction modulo 2^64 where C++ overflow could matter.
-/

namespace Legion

/-! ## RendezvousKey (PhysicalManager::RendezvousKey, legion_instances.h:313-333) -/

/-- PhysicalManager::RendezvousKey: the key for rendezvous between collective
user registrations, a triple of view distributed id, operation context
sequence number and region-requirement index. -/
structure RendezvousKey where
  view_did : Nat
  op_context_index : Nat
  index : Nat
deriving DecidableEq, Repr

/-- RendezvousKey::operator< from legion_instances.h:320-327, translated
branch by branch. -/
def RendezvousKey.lt (a rhs : RendezvousKey) : Bool :=
  if a.view_did < rhs.view_did then true
  else if a.view_did > rhs.view_did then false
  else if a.op_context_index < rhs.op_context_index then true
  else if a.op_context_index > rhs.op_context_index then false
  else decide (a.index < rhs.index)

/-! ## Garbage collection states (PhysicalManager::GarbageCollectionState,
legion_instances.h:303-309) -/

/-- PhysicalManager::GarbageCollectionState enum. -/
inductive GarbageCollectionState where
  | VALID_GC_STATE
  | ACQUIRED_GC_STATE
  | COLLECTABLE_GC_STATE
  | PENDING_COLLECTED_GC_STATE
  | COLLECTED_GC_STATE
deriving DecidableEq, Repr

open GarbageCollectionState

/-- Modelled from the spec: the garbage-collection state-machine transitions
of section 3 of the spec (the body of the protocol lives in
legion_instances.cc, which is not part of the sources; only the state enum
and the operation declarations are in legion_instances.h).  One constructor
per labelled edge of the spec's diagram. -/
inductive GCTransition : GarbageCollectionState → GarbageCollectionState → Prop where
  | becomes_collectable : GCTransition VALID_GC_STATE COLLECTABLE_GC_STATE
  | collection_starts : GCTransition COLLECTABLE_GC_STATE PENDING_COLLECTED_GC_STATE
  | deletion_completes : GCTransition PENDING_COLLECTED_GC_STATE COLLECTED_GC_STATE
  | acquire_succeeds (s : GarbageCollectionState) (h : s ≠ COLLECTED_GC_STATE) :
      GCTransition s ACQUIRED_GC_STATE
  | all_released : GCTransition ACQUIRED_GC_STATE VALID_GC_STATE
  | collection_aborted_collectable : GCTransition COLLECTABLE_GC_STATE VALID_GC_STATE
  | collection_aborted_pending : GCTransition PENDING_COLLECTED_GC_STATE VALID_GC_STATE

/-- Modelled from the spec: PhysicalManager::acquire_instance
(declared at legion_instances.h:423; body in legion_instances.cc, not in the
sources).  Per section 4.2 of the spec it fails returning false when the
state has already reached COLLECTED and otherwise succeeds, moving the state
to ACQUIRED.  Returns the pair (return value, new gc_state). -/
def acquire_instance (gc_state : GarbageCollectionState) :
    Bool × GarbageCollectionState :=
  match gc_state with
  | COLLECTED_GC_STATE => (false, COLLECTED_GC_STATE)
  | _ => (true, ACQUIRED_GC_STATE)

/-! ## Distributed identifier encoding (InstanceManager, legion_instances.h:
170-174 and 1501-1547) -/

/-- InstanceManager::EXTERNAL_CODE (legion_instances.h:171). -/
def EXTERNAL_CODE : Nat := 0x10

/-- InstanceManager::REDUCTION_CODE (legion_instances.h:172). -/
def REDUCTION_CODE : Nat := 0x20

/-- InstanceManager::COLLECTIVE_CODE (legion_instances.h:173). -/
def COLLECTIVE_CODE : Nat := 0x40

/-- Modelled from the spec: the PHYSICAL_MANAGER_DC kind code (defined in
legion_types.h, not in the sources).  It is a 4-bit kind code compared
against the low nibble of the help byte; its concrete value does not matter
to the claims beyond fitting in 4 bits. -/
def PHYSICAL_MANAGER_DC : Nat := 0x1

/-- Modelled from the spec: LEGION_DISTRIBUTED_HELP_ENCODE (defined in
garbage_collection.h, not in the sources) shifts the identifier left by the
help bits (8) and ors in the help code, in a 64-bit unsigned identifier;
since the help code fits in the low byte the or is an addition. -/
def LEGION_DISTRIBUTED_HELP_ENCODE (did help : Nat) : Nat :=
  (did * 256 + help) % 2 ^ 64

/-- Modelled from the spec: LEGION_DISTRIBUTED_HELP_DECODE (defined in
garbage_collection.h, not in the sources) masks off the low help byte. -/
def LEGION_DISTRIBUTED_HELP_DECODE (did : Nat) : Nat := did % 256

/-- InstanceManager::encode_instance_did (legion_instances.h:1501-1509). -/
def encode_instance_did (did : Nat) (external reduction collective : Bool) :
    Nat :=
  LEGION_DISTRIBUTED_HELP_ENCODE did (PHYSICAL_MANAGER_DC +
    (if external then EXTERNAL_CODE else 0) +
    (if reduction then REDUCTION_CODE else 0) +
    (if collective then COLLECTIVE_CODE else 0))

/-- InstanceManager::is_physical_did (legion_instances.h:1512-1517). -/
def is_physical_did (did : Nat) : Bool :=
  (LEGION_DISTRIBUTED_HELP_DECODE did) &&& 0xF == PHYSICAL_MANAGER_DC

/-- InstanceManager::is_reduction_did (legion_instances.h:1520-1527); the
local variable `decode` of the source is substituted inline. -/
def is_reduction_did (did : Nat) : Bool :=
  if LEGION_DISTRIBUTED_HELP_DECODE did &&& 0xF != PHYSICAL_MANAGER_DC then
    false
  else LEGION_DISTRIBUTED_HELP_DECODE did &&& REDUCTION_CODE != 0

/-- InstanceManager::is_external_did (legion_instances.h:1530-1537); the
local variable `decode` of the source is substituted inline. -/
def is_external_did (did : Nat) : Bool :=
  if LEGION_DISTRIBUTED_HELP_DECODE did &&& 0xF != PHYSICAL_MANAGER_DC then
    false
  else LEGION_DISTRIBUTED_HELP_DECODE did &&& EXTERNAL_CODE != 0

/-- InstanceManager::is_collective_did (legion_instances.h:1540-1547); the
local variable `decode` of the source is substituted inline. -/
def is_collective_did (did : Nat) : Bool :=
  if LEGION_DISTRIBUTED_HELP_DECODE did &&& 0xF != PHYSICAL_MANAGER_DC then
    false
  else LEGION_DISTRIBUTED_HELP_DECODE did &&& COLLECTIVE_CODE != 0

/-! ## CollectiveMapping (legion_instances.h:115-161)

The NodeSet member `unique_sorted_spaces` is a sorted bit-set of address
spaces (defined in legion_utilities.h, outside the sources); it is modelled
as a strictly sorted `List Nat`.  The method bodies of get_parent,
get_children, convert_to_offset, convert_to_index, pack, the Deserializer
constructor and operator== live in legion_instances.cc, which is not part of
the sources, so they are modelled from the spec (section 4.1). -/

/-- Modelled from the spec: NodeSet::add (legion_utilities.h, not in the
sources) inserts an address space into the sorted deduplicated set. -/
def nodeset_add : List Nat → Nat → List Nat
  | [], x => [x]
  | y :: ys, x =>
      if x < y then x :: y :: ys
      else if x = y then y :: ys
      else y :: nodeset_add ys x

/-- CollectiveMapping: a sorted deduplicated set of address-space ids plus a
radix (legion_instances.h:157-161).  `total_spaces` is the length of the
member list, so it is not stored separately. -/
structure CollectiveMapping where
  unique_sorted_spaces : List Nat
  radix : Nat
deriving DecidableEq, Repr

namespace CollectiveMapping

/-- CollectiveMapping::size (legion_instances.h:132): the number of member
spaces, the `total_spaces` field of the source. -/
def size (m : CollectiveMapping) : Nat := m.unique_sorted_spaces.length

/-- The class invariant stated in the spec (section 3): the member set is
sorted and deduplicated.  Strict sortedness implies both. -/
def wf (m : CollectiveMapping) : Prop :=
  m.unique_sorted_spaces.Sorted (· < ·)

instance (m : CollectiveMapping) : Decidable m.wf := by
  unfold wf List.Sorted; infer_instance

/-- NodeSet::get_index as used by CollectiveMapping::operator[]
(legion_instances.h:122-127): the idx-th smallest member. -/
def get_index (m : CollectiveMapping) (idx : Nat) : Nat :=
  m.unique_sorted_spaces.getD idx 0

/-- NodeSet rank lookup: the position of a member in the sorted list. -/
def rank_of : List Nat → Nat → Nat
  | [], _ => 0
  | y :: ys, s => if y = s then 0 else rank_of ys s + 1

/-- NodeSet::find_index as used by CollectiveMapping::find_index
(legion_instances.h:128-129): the rank of a member in the sorted set. -/
def find_index (m : CollectiveMapping) (space : Nat) : Nat :=
  rank_of m.unique_sorted_spaces space

/-- NodeSet::find_first_set as used by CollectiveMapping::get_origin
(legion_instances.h:133-138): the least member of the bit-set, i.e. the head
of the sorted member list. -/
def get_origin (m : CollectiveMapping) : Nat :=
  m.unique_sorted_spaces.headD 0

/-- CollectiveMapping::contains (legion_instances.h:149-150). -/
def contains (m : CollectiveMapping) (space : Nat) : Bool :=
  decide (space ∈ m.unique_sorted_spaces)

/-- Modelled from the spec: CollectiveMapping::convert_to_offset
(declared legion_instances.h:155; body in legion_instances.cc, not in the
sources): the rank of a node relative to the origin's rank, wrapping
modulo the number of spaces. -/
def convert_to_offset (m : CollectiveMapping) (index origin : Nat) : Nat :=
  if index < origin then index + m.size - origin else index - origin

/-- Modelled from the spec: CollectiveMapping::convert_to_index
(declared legion_instances.h:156; body in legion_instances.cc, not in the
sources): the inverse of convert_to_offset, mapping an origin-relative
offset back to a rank in the sorted set. -/
def convert_to_index (m : CollectiveMapping) (offset origin : Nat) : Nat :=
  if m.size ≤ origin + offset then origin + offset - m.size
  else origin + offset

/-- Modelled from the spec: CollectiveMapping::get_parent (declared
legion_instances.h:142-143; body in legion_instances.cc, not in the
sources).  Section 4.1: convert the local node's rank to an offset relative
to origin, step to the parent slot of the implicit radix-ary tree laid out
in offset order (parent of offset c is (c-1)/radix), and convert back. -/
def get_parent (m : CollectiveMapping) (origin local_space : Nat) : Nat :=
  m.get_index (m.convert_to_index
    ((m.convert_to_offset (m.find_index local_space) (m.find_index origin)
        - 1) / m.radix)
    (m.find_index origin))

/-- Modelled from the spec: CollectiveMapping::get_children (declared
legion_instances.h:146-147; body in legion_instances.cc, not in the
sources).  Section 4.1: enumerate up to radix children by the inverse
transform (child offsets radix*offset+1 .. radix*offset+radix), stopping at
the tree boundary. -/
def get_children (m : CollectiveMapping) (origin local_space : Nat) :
    List Nat :=
  (List.range m.radix).filterMap fun idx =>
    if m.radix * m.convert_to_offset (m.find_index local_space)
        (m.find_index origin) + idx + 1 < m.size then
      some (m.get_index (m.convert_to_index
        (m.radix * m.convert_to_offset (m.find_index local_space)
          (m.find_index origin) + idx + 1)
        (m.find_index origin)))
    else none

/-- Modelled from the spec: CollectiveMapping::count_children (declared
legion_instances.h:144-145): the number of children without materializing
the list. -/
def count_children (m : CollectiveMapping) (origin local_space : Nat) : Nat :=
  (m.get_children origin local_space).length

/-- Modelled from the spec: CollectiveMapping::pack (declared
legion_instances.h:153; body in legion_instances.cc, not in the sources)
serializes the member spaces in order followed by the radix; the size is
sent separately by the callers and handed to the Deserializer
constructor. -/
def pack (m : CollectiveMapping) : List Nat :=
  m.unique_sorted_spaces ++ [m.radix]

/-- Modelled from the spec: the CollectiveMapping(Deserializer&, size_t)
constructor (declared legion_instances.h:119; body in legion_instances.cc,
not in the sources) reads total_spaces members, adding each to the NodeSet,
then reads the radix. -/
def unpack (derez : List Nat) (total_spaces : Nat) : CollectiveMapping :=
  { unique_sorted_spaces := (derez.take total_spaces).foldl nodeset_add [],
    radix := (derez.drop total_spaces).headD 0 }

/-- Modelled from the spec: CollectiveMapping::operator== (declared
legion_instances.h:139; body in legion_instances.cc, not in the sources).
Section 4.1: equality is by member-set value; on the canonical sorted
deduplicated representation the sets are equal exactly when the NodeSets
are equal. -/
def operator_eq (m rhs : CollectiveMapping) : Bool :=
  m.unique_sorted_spaces == rhs.unique_sorted_spaces

/-- Modelled from the spec: CollectiveMapping::operator!= (declared
legion_instances.h:140), the negation of operator==. -/
def operator_ne (m rhs : CollectiveMapping) : Bool :=
  !(m.operator_eq rhs)

end CollectiveMapping

/-! ## Rendezvous bookkeeping (CollectiveManager::UserRendezvous,
legion_instances.h:1310-1344, and the registration protocol of spec
section 4.4; the bodies of register_collective_user and
finalize_collective_user live in legion_instances.cc, outside the
sources). -/

/-- CollectiveManager::UserRendezvous (legion_instances.h:1310-1343),
restricted to the arrival-counting fields that drive finalization; the
accumulated analysis pointers and event handles do not affect when the
record finalizes. -/
structure UserRendezvous where
  remaining_local_arrivals : Nat
  remaining_remote_arrivals : Nat
deriving DecidableEq, Repr

/-- The per-manager rendezvous state: the rendezvous_users map
(legion_instances.h:1344), as an association list, together with the list
of keys whose ready/registered events have been fired (each firing appends
the key, so the count of a key records how many times its events fired). -/
structure RendezvousState where
  rendezvous_users : List (RendezvousKey × UserRendezvous)
  fired_events : List RendezvousKey
deriving DecidableEq, Repr

/-- Lookup of a key in the rendezvous_users association list. -/
def rendezvous_find (users : List (RendezvousKey × UserRendezvous))
    (key : RendezvousKey) : Option UserRendezvous :=
  match users with
  | [] => none
  | e :: rest => if e.1 = key then some e.2 else rendezvous_find rest key

/-- Replace the record stored for a key (std::map assignment). -/
def rendezvous_update (users : List (RendezvousKey × UserRendezvous))
    (key : RendezvousKey) (record : UserRendezvous) :
    List (RendezvousKey × UserRendezvous) :=
  match users with
  | [] => [(key, record)]
  | e :: rest =>
      if e.1 = key then (key, record) :: rest
      else e :: rendezvous_update rest key record

/-- Erase the record stored for a key (rendezvous_users.erase). -/
def rendezvous_erase (users : List (RendezvousKey × UserRendezvous))
    (key : RendezvousKey) : List (RendezvousKey × UserRendezvous) :=
  match users with
  | [] => []
  | e :: rest =>
      if e.1 = key then rest else e :: rendezvous_erase rest key

/-- Modelled from the spec: one arrival of register_collective_user for a
key (sections 3 and 4.4; declared legion_instances.h:971-984, body in
legion_instances.cc, not in the sources).  The first arrival for the key
creates the record initialized with the expected local and remote arrival
counts; every arrival decrements the matching remaining counter; when
remaining_local_arrivals + remaining_remote_arrivals reaches zero the
record finalizes — its ready/registered events fire and it is erased from
the map (finalize_collective_user, legion_instances.h:1206-1220). -/
def register_user (s : RendezvousState) (key : RendezvousKey)
    (expected_local expected_remote : Nat) (is_local : Bool) :
    RendezvousState :=
  let record :=
    match rendezvous_find s.rendezvous_users key with
    | some r => r
    | none => { remaining_local_arrivals := expected_local,
                remaining_remote_arrivals := expected_remote }
  let record' :=
    if is_local then
      { record with
        remaining_local_arrivals := record.remaining_local_arrivals - 1 }
    else
      { record with
        remaining_remote_arrivals := record.remaining_remote_arrivals - 1 }
  if record'.remaining_local_arrivals = 0 ∧
      record'.remaining_remote_arrivals = 0 then
    { rendezvous_users := rendezvous_erase s.rendezvous_users key,
      fired_events := key :: s.fired_events }
  else
    { rendezvous_users := rendezvous_update s.rendezvous_users key record',
      fired_events := s.fired_events }

/-- Run a sequence of arrivals (true = local arrival, false = remote
arrival) for one key against a rendezvous state. -/
def register_users (s : RendezvousState) (key : RendezvousKey)
    (expected_local expected_remote : Nat) (arrivals : List Bool) :
    RendezvousState :=
  arrivals.foldl (fun t b => register_user t key expected_local
    expected_remote b) s

/-- The empty rendezvous state: no records, no fired events. -/
def rendezvous_init : RendezvousState :=
  { rendezvous_users := [], fired_events := [] }

/-- Closed form of the rendezvous state for one key after some arrivals
(locals local ones, remotes remote ones) of the expected totals have
registered, starting from the empty state: no record before the first
arrival, one accumulated record while arrivals remain, and the finalized
state (record erased, events fired once) when all have arrived.  Used to
state and prove the invariant of the registration protocol. -/
def rendezvous_state_after (key : RendezvousKey)
    (expected_local expected_remote locals remotes : Nat) :
    RendezvousState :=
  if locals = 0 ∧ remotes = 0 then rendezvous_init
  else if locals = expected_local ∧ remotes = expected_remote then
    { rendezvous_users := [], fired_events := [key] }
  else
    { rendezvous_users := [(key,
        { remaining_local_arrivals := expected_local - locals,
          remaining_remote_arrivals := expected_remote - remotes })],
      fired_events := [] }

/-! ## InstanceManager field queries (legion_instances.h:208-220) and
is_virtual_manager (legion_instances.h:1564-1568). -/

/-- LayoutDescription (legion_instances.h:39-106), restricted to its field
set; the field-query methods are declared in the header with bodies in
legion_instances.cc (the layout cache is an out-of-scope collaborator per
the spec), so they are modelled from the spec as queries over the set of
allocated fields. -/
structure LayoutDescription where
  allocated_fields : List Nat
deriving DecidableEq, Repr

/-- Modelled from the spec: LayoutDescription::has_field
(legion_instances.h:73). -/
def LayoutDescription.layout_has_field (l : LayoutDescription) (fid : Nat) :
    Bool :=
  decide (fid ∈ l.allocated_fields)

/-- Modelled from the spec: LayoutDescription::get_fields
(legion_instances.h:72) inserts the layout's fields into the given set. -/
def LayoutDescription.layout_get_fields (l : LayoutDescription)
    (fields : List Nat) : List Nat :=
  l.allocated_fields.foldl nodeset_add fields

/-- Modelled from the spec: LayoutDescription::has_fields
(legion_instances.h:74) sets each entry's mapped value to whether the
layout has that field. -/
def LayoutDescription.layout_has_fields (l : LayoutDescription)
    (fields : List (Nat × Bool)) : List (Nat × Bool) :=
  fields.map fun e => (e.1, l.layout_has_field e.1)

/-- Modelled from the spec: LayoutDescription::remove_space_fields
(legion_instances.h:75) removes the layout's field-space fields from the
given set. -/
def LayoutDescription.layout_remove_space_fields (l : LayoutDescription)
    (fields : List Nat) : List Nat :=
  fields.filter fun f => !(l.layout_has_field f)

/-- InstanceManager (legion_instances.h:168-238), restricted to the members
the claims touch: the distributed identifier inherited from
DistributedCollectable and the layout pointer, which is NULL exactly for
the virtual manager. -/
structure InstanceManager where
  did : Nat
  layout : Option LayoutDescription
deriving DecidableEq, Repr

/-- InstanceManager::is_virtual_manager (legion_instances.h:1564-1568):
did == 0. -/
def InstanceManager.is_virtual_manager (m : InstanceManager) : Bool :=
  m.did == 0

/-- InstanceManager::has_field (legion_instances.h:212-213): if the layout
is non-NULL delegate to it, otherwise return false. -/
def InstanceManager.has_field (m : InstanceManager) (fid : Nat) : Bool :=
  match m.layout with
  | some l => l.layout_has_field fid
  | none => false

/-- InstanceManager::get_fields (legion_instances.h:210-211): if the layout
is non-NULL delegate to it, otherwise leave the set unchanged. -/
def InstanceManager.get_fields (m : InstanceManager) (fields : List Nat) :
    List Nat :=
  match m.layout with
  | some l => l.layout_get_fields fields
  | none => fields

/-- InstanceManager::has_fields (legion_instances.h:214-217): if the layout
is non-NULL delegate to it, otherwise set every entry's mapped value to
false. -/
def InstanceManager.has_fields (m : InstanceManager)
    (fields : List (Nat × Bool)) : List (Nat × Bool) :=
  match m.layout with
  | some l => l.layout_has_fields fields
  | none => fields.map fun e => (e.1, false)

/-- InstanceManager::remove_space_fields (legion_instances.h:218-220): if
the layout is non-NULL delegate to it, otherwise clear the set. -/
def InstanceManager.remove_space_fields (m : InstanceManager)
    (fields : List Nat) : List Nat :=
  match m.layout with
  | some l => l.layout_remove_space_fields fields
  | none => []

/-! ## Theorems -/

/-- The help byte written by LEGION_DISTRIBUTED_HELP_ENCODE is recovered
exactly by LEGION_DISTRIBUTED_HELP_DECODE, for any identifier, despite the
64-bit wrap-around of the shifted identifier. -/
theorem help_decode_encode (did help : Nat) (h : help < 256) :
    LEGION_DISTRIBUTED_HELP_DECODE (LEGION_DISTRIBUTED_HELP_ENCODE did help)
      = help := by
  unfold LEGION_DISTRIBUTED_HELP_DECODE LEGION_DISTRIBUTED_HELP_ENCODE
  rw [Nat.mod_mod_of_dvd _ (by norm_num : (256 : Nat) ∣ 2 ^ 64)]
  omega

/-- Claim C4: for every distributed identifier and every combination of the
external/reduction/collective booleans, the flags encoded by
encode_instance_did are decoded locally and orthogonally by
is_external_did, is_reduction_did, is_collective_did, and is_physical_did
holds on the encoded identifier. -/
theorem C4_encode_instance_did_flags_orthogonal (did : Nat)
    (e r c : Bool) :
    is_external_did (encode_instance_did did e r c) = e ∧
    is_reduction_did (encode_instance_did did e r c) = r ∧
    is_collective_did (encode_instance_did did e r c) = c ∧
    is_physical_did (encode_instance_did did e r c) = true := by
  cases e <;> cases r <;> cases c <;>
    simp only [encode_instance_did, EXTERNAL_CODE, REDUCTION_CODE,
      COLLECTIVE_CODE, PHYSICAL_MANAGER_DC, is_external_did,
      is_reduction_did, is_collective_did, is_physical_did,
      Bool.false_eq_true, if_false, if_true, ite_true, ite_false] <;>
    rw [help_decode_encode _ _ (by norm_num)] <;> decide

/-- Claim C8: an InstanceManager is a virtual manager exactly when its
distributed identifier is zero. -/
theorem C8_is_virtual_manager_iff_did_zero (m : InstanceManager) :
    m.is_virtual_manager = true ↔ m.did = 0 := by
  simp [InstanceManager.is_virtual_manager]

/-- Claim C3: acquire_instance returns false exactly when the gc state has
already reached COLLECTED; in every other state it returns true and moves
the state to ACQUIRED; and COLLECTED is terminal, no transition of the
garbage-collection state machine leaves it. -/
theorem C3_acquire_instance_collected_terminal (s : GarbageCollectionState) :
    ((acquire_instance s).1 = false ↔ s = COLLECTED_GC_STATE) ∧
    (s ≠ COLLECTED_GC_STATE → (acquire_instance s).1 = true ∧
      (acquire_instance s).2 = ACQUIRED_GC_STATE) ∧
    (∀ t, ¬ GCTransition COLLECTED_GC_STATE t) := by
  refine ⟨?_, ?_, ?_⟩
  · cases s <;> simp [acquire_instance]
  · cases s <;> simp [acquire_instance]
  · intro t h
    cases h with
    | acquire_succeeds _ hne => exact hne rfl

/-- Witness for C3 at the VALID state: acquiring a valid instance succeeds
and lands in the ACQUIRED state. -/
theorem C3_acquire_instance_collected_terminal_witness :
    (acquire_instance VALID_GC_STATE).1 = true ∧
    (acquire_instance VALID_GC_STATE).2 = ACQUIRED_GC_STATE :=
  (C3_acquire_instance_collected_terminal VALID_GC_STATE).2.1 (by decide)

/-- Claim C9: on an InstanceManager whose layout pointer is NULL (the
virtual-manager case), has_field is false for every field, get_fields
leaves the given set unchanged, has_fields maps every entry's value to
false, and remove_space_fields empties the given set. -/
theorem C9_null_layout_field_queries (m : InstanceManager)
    (h : m.layout = none) :
    (∀ fid, m.has_field fid = false) ∧
    (∀ fields, m.get_fields fields = fields) ∧
    (∀ fields, m.has_fields fields = fields.map (fun e => (e.1, false)) ∧
      ∀ p ∈ m.has_fields fields, p.2 = false) ∧
    (∀ fields, m.remove_space_fields fields = []) := by
  refine ⟨fun fid => ?_, fun fields => ?_,
      fun fields => ⟨?_, fun p hp => ?_⟩, fun fields => ?_⟩
  · simp only [InstanceManager.has_field, h]
  · simp only [InstanceManager.get_fields, h]
  · simp only [InstanceManager.has_fields, h]
  · simp only [InstanceManager.has_fields, h] at hp
    rw [List.mem_map] at hp
    obtain ⟨a, _, rfl⟩ := hp
    rfl
  · simp only [InstanceManager.remove_space_fields, h]

/-- Witness for C9 on a concrete NULL-layout manager. -/
theorem C9_null_layout_field_queries_witness :
    InstanceManager.has_field ⟨0, none⟩ 7 = false ∧
    InstanceManager.get_fields ⟨0, none⟩ [1, 2] = [1, 2] ∧
    InstanceManager.has_fields ⟨0, none⟩ [(3, true)] = [(3, false)] ∧
    InstanceManager.remove_space_fields ⟨0, none⟩ [4, 5] = [] :=
  ⟨(C9_null_layout_field_queries ⟨0, none⟩ rfl).1 7,
   (C9_null_layout_field_queries ⟨0, none⟩ rfl).2.1 [1, 2],
   ((C9_null_layout_field_queries ⟨0, none⟩ rfl).2.2.1 [(3, true)]).1,
   (C9_null_layout_field_queries ⟨0, none⟩ rfl).2.2.2 [4, 5]⟩

/-- Characterization of RendezvousKey::operator< as the lexicographic order
on its three components. -/
theorem rendezvousKey_lt_iff (a b : RendezvousKey) :
    RendezvousKey.lt a b = true ↔
      (a.view_did < b.view_did ∨ (a.view_did = b.view_did ∧
        (a.op_context_index < b.op_context_index ∨
          (a.op_context_index = b.op_context_index ∧
            a.index < b.index)))) := by
  unfold RendezvousKey.lt
  split_ifs <;> simp_all <;> omega

/-- Claim C10: RendezvousKey::operator< is the strict lexicographic order
on (view_did, op_context_index, index): it matches lexicographic
comparison, is irreflexive, transitive, and trichotomous with
component-wise (structural) equality. -/
theorem C10_rendezvous_key_strict_total_order (a b c : RendezvousKey) :
    (RendezvousKey.lt a b = true ↔
      (a.view_did < b.view_did ∨ (a.view_did = b.view_did ∧
        (a.op_context_index < b.op_context_index ∨
          (a.op_context_index = b.op_context_index ∧
            a.index < b.index))))) ∧
    RendezvousKey.lt a a = false ∧
    (RendezvousKey.lt a b = true → RendezvousKey.lt b c = true →
      RendezvousKey.lt a c = true) ∧
    (RendezvousKey.lt a b = true ∨ RendezvousKey.lt b a = true ∨ a = b) := by
  refine ⟨rendezvousKey_lt_iff a b, ?_, ?_, ?_⟩
  · obtain ⟨av, ao, ai⟩ := a
    rw [← Bool.not_eq_true, rendezvousKey_lt_iff]
    simp only [not_or, not_and, not_lt]
    omega
  · obtain ⟨av, ao, ai⟩ := a
    obtain ⟨bv, bo, bi⟩ := b
    obtain ⟨cv, co, ci⟩ := c
    rw [rendezvousKey_lt_iff, rendezvousKey_lt_iff, rendezvousKey_lt_iff]
    simp only
    omega
  · obtain ⟨av, ao, ai⟩ := a
    obtain ⟨bv, bo, bi⟩ := b
    rw [rendezvousKey_lt_iff, rendezvousKey_lt_iff, RendezvousKey.mk.injEq]
    simp only
    omega

/-- Witness for C10 at concrete keys: (1,2,3) < (1,2,4) in the
lexicographic order, irreflexivity, transitivity and trichotomy hold
there. -/
theorem C10_rendezvous_key_strict_total_order_witness :
    (RendezvousKey.lt ⟨1, 2, 3⟩ ⟨1, 2, 4⟩ = true ↔
      ((1 : Nat) < 1 ∨ ((1 : Nat) = 1 ∧
        ((2 : Nat) < 2 ∨ ((2 : Nat) = 2 ∧ (3 : Nat) < 4))))) ∧
    RendezvousKey.lt ⟨1, 2, 3⟩ ⟨1, 2, 3⟩ = false ∧
    (RendezvousKey.lt ⟨1, 2, 3⟩ ⟨1, 2, 4⟩ = true →
      RendezvousKey.lt ⟨1, 2, 4⟩ ⟨2, 0, 0⟩ = true →
      RendezvousKey.lt ⟨1, 2, 3⟩ ⟨2, 0, 0⟩ = true) ∧
    (RendezvousKey.lt ⟨1, 2, 3⟩ ⟨1, 2, 4⟩ = true ∨
      RendezvousKey.lt ⟨1, 2, 4⟩ ⟨1, 2, 3⟩ = true ∨
      (⟨1, 2, 3⟩ : RendezvousKey) = ⟨1, 2, 4⟩) :=
  C10_rendezvous_key_strict_total_order ⟨1, 2, 3⟩ ⟨1, 2, 4⟩ ⟨2, 0, 0⟩

/-- Two strictly sorted lists with the same members are equal. -/
theorem sorted_mem_ext : ∀ (l₁ l₂ : List Nat), l₁.Sorted (· < ·) →
    l₂.Sorted (· < ·) → (∀ x, x ∈ l₁ ↔ x ∈ l₂) → l₁ = l₂ := by
  intro l₁
  induction l₁ with
  | nil =>
    intro l₂ _ _ h
    cases l₂ with
    | nil => rfl
    | cons y ys =>
      exact absurd ((h y).mpr (List.mem_cons_self y ys)) (List.not_mem_nil y)
  | cons x xs ih =>
    intro l₂ h₁ h₂ h
    cases l₂ with
    | nil =>
      exact absurd ((h x).mp (List.mem_cons_self x xs)) (List.not_mem_nil x)
    | cons y ys =>
      rw [List.sorted_cons] at h₁ h₂
      have hxy : x = y := by
        have hx2 : x ∈ y :: ys := (h x).mp (List.mem_cons_self x xs)
        have hy1 : y ∈ x :: xs := (h y).mpr (List.mem_cons_self y ys)
        rcases List.mem_cons.mp hx2 with h' | h'
        · exact h'
        · rcases List.mem_cons.mp hy1 with h'' | h''
          · exact h''.symm
          · have hlt₁ := h₂.1 x h'
            have hlt₂ := h₁.1 y h''
            omega
      subst hxy
      congr 1
      apply ih ys h₁.2 h₂.2
      intro z
      constructor
      · intro hz
        have hlt := h₁.1 z hz
        rcases List.mem_cons.mp ((h z).mp (List.mem_cons_of_mem x hz)) with
          h' | h'
        · omega
        · exact h'
      · intro hz
        have hlt := h₂.1 z hz
        rcases List.mem_cons.mp ((h z).mpr (List.mem_cons_of_mem x hz)) with
          h' | h'
        · omega
        · exact h'

/-- Adding an element larger than every member of a sorted set appends it
at the end. -/
theorem nodeset_add_append : ∀ (l : List Nat) (x : Nat), (∀ y ∈ l, y < x) →
    nodeset_add l x = l ++ [x] := by
  intro l
  induction l with
  | nil => intro x _; rfl
  | cons y ys ih =>
    intro x h
    have hy : y < x := h y (List.mem_cons_self y ys)
    unfold nodeset_add
    rw [if_neg (by omega), if_neg (by omega),
      ih x (fun z hz => h z (List.mem_cons_of_mem y hz))]
    rfl

/-- Folding nodeset_add over a list that extends a sorted accumulator in
sorted order reproduces the concatenation. -/
theorem foldl_nodeset_add : ∀ (l acc : List Nat),
    (acc ++ l).Sorted (· < ·) → l.foldl nodeset_add acc = acc ++ l := by
  intro l
  induction l with
  | nil => intro acc _; simp
  | cons x xs ih =>
    intro acc hs
    have hlt : ∀ y ∈ acc, y < x := by
      rw [List.Sorted, List.pairwise_append] at hs
      exact fun y hy => hs.2.2 y hy x (List.mem_cons_self x xs)
    rw [List.foldl_cons, nodeset_add_append acc x hlt,
      ih (acc ++ [x]) (by rw [List.append_assoc]; simpa using hs)]
    simp

/-- Claim C7: for every CollectiveMapping with at least one member,
get_origin returns the smallest node identifier in the member set. -/
theorem C7_get_origin_smallest_member (m : CollectiveMapping) (hs : m.wf)
    (hne : m.unique_sorted_spaces ≠ []) :
    m.get_origin ∈ m.unique_sorted_spaces ∧
    ∀ x ∈ m.unique_sorted_spaces, m.get_origin ≤ x := by
  unfold CollectiveMapping.get_origin
  unfold CollectiveMapping.wf at hs
  cases hl : m.unique_sorted_spaces with
  | nil => exact absurd hl hne
  | cons y ys =>
    rw [hl] at hs
    rw [List.sorted_cons] at hs
    simp only [List.headD_cons]
    refine ⟨List.mem_cons_self y ys, ?_⟩
    intro x hx
    rcases List.mem_cons.mp hx with h' | h'
    · omega
    · exact Nat.le_of_lt (hs.1 x h')

/-- Witness for C7 on the mapping over nodes 2, 5, 7: the origin is the
smallest member 2. -/
theorem C7_get_origin_smallest_member_witness :
    CollectiveMapping.get_origin ⟨[2, 5, 7], 2⟩ ∈ [2, 5, 7] ∧
    ∀ x ∈ [2, 5, 7], CollectiveMapping.get_origin ⟨[2, 5, 7], 2⟩ ≤ x :=
  C7_get_origin_smallest_member ⟨[2, 5, 7], 2⟩ (by decide) (by decide)

/-- Claim C6: CollectiveMapping operator== holds exactly for mappings with
equal member node sets, however they were constructed, and operator!= is
its negation. -/
theorem C6_operator_eq_by_member_set (a b : CollectiveMapping)
    (ha : a.wf) (hb : b.wf) :
    (a.operator_eq b = true ↔
      ∀ x, x ∈ a.unique_sorted_spaces ↔ x ∈ b.unique_sorted_spaces) ∧
    a.operator_ne b = !(a.operator_eq b) := by
  refine ⟨?_, rfl⟩
  unfold CollectiveMapping.operator_eq
  rw [beq_iff_eq]
  constructor
  · intro he x
    rw [he]
  · intro h
    exact sorted_mem_ext _ _ ha hb h

/-- Witness for C6: two independently constructed mappings over the members
2, 5, 7 (with different radices) compare equal by member set. -/
theorem C6_operator_eq_by_member_set_witness :
    (CollectiveMapping.operator_eq ⟨[2, 5, 7], 2⟩ ⟨[2, 5, 7], 4⟩ = true ↔
      ∀ x, x ∈ [2, 5, 7] ↔ x ∈ [2, 5, 7]) ∧
    CollectiveMapping.operator_ne ⟨[2, 5, 7], 2⟩ ⟨[2, 5, 7], 4⟩ =
      !(CollectiveMapping.operator_eq ⟨[2, 5, 7], 2⟩ ⟨[2, 5, 7], 4⟩) :=
  C6_operator_eq_by_member_set ⟨[2, 5, 7], 2⟩ ⟨[2, 5, 7], 4⟩
    (by decide) (by decide)

/-- Claim C5: packing a CollectiveMapping and reconstructing a mapping from
the serialized form with the Deserializer constructor yields a mapping that
compares equal to the original under operator== (and recovers the radix
too). -/
theorem C5_pack_unpack_roundtrip (m : CollectiveMapping) (hs : m.wf) :
    (CollectiveMapping.unpack m.pack m.size).operator_eq m = true ∧
    (CollectiveMapping.unpack m.pack m.size).radix = m.radix := by
  unfold CollectiveMapping.unpack CollectiveMapping.pack
    CollectiveMapping.size CollectiveMapping.operator_eq
  rw [List.take_left, List.drop_left]
  constructor
  · rw [foldl_nodeset_add _ [] (by simpa using hs)]
    simp
  · rfl

/-- Witness for C5 on the mapping over nodes 2, 5, 7 with radix 2. -/
theorem C5_pack_unpack_roundtrip_witness :
    (CollectiveMapping.unpack
        (CollectiveMapping.pack ⟨[2, 5, 7], 2⟩)
        (CollectiveMapping.size ⟨[2, 5, 7], 2⟩)).operator_eq
      ⟨[2, 5, 7], 2⟩ = true ∧
    (CollectiveMapping.unpack
        (CollectiveMapping.pack ⟨[2, 5, 7], 2⟩)
        (CollectiveMapping.size ⟨[2, 5, 7], 2⟩)).radix = 2 :=
  C5_pack_unpack_roundtrip ⟨[2, 5, 7], 2⟩ (by decide)

/-! ### Rank and index lemmas for the NodeSet model -/

theorem rank_of_lt : ∀ (l : List Nat) (s : Nat), s ∈ l →
    CollectiveMapping.rank_of l s < l.length := by
  intro l
  induction l with
  | nil => intro s h; simp at h
  | cons y ys ih =>
    intro s h
    unfold CollectiveMapping.rank_of
    split
    · simp
    · next hne =>
      have hs : s ∈ ys := by
        rcases List.mem_cons.mp h with h' | h'
        · exact absurd h'.symm hne
        · exact h'
      simpa using ih s hs

theorem getD_rank_of : ∀ (l : List Nat) (s : Nat), s ∈ l →
    l.getD (CollectiveMapping.rank_of l s) 0 = s := by
  intro l
  induction l with
  | nil => intro s h; simp at h
  | cons y ys ih =>
    intro s h
    unfold CollectiveMapping.rank_of
    split
    · next he => simpa using he
    · next hne =>
      have hs : s ∈ ys := by
        rcases List.mem_cons.mp h with h' | h'
        · exact absurd h'.symm hne
        · exact h'
      rw [List.getD_cons_succ]
      exact ih s hs

theorem getD_mem_of_lt : ∀ (l : List Nat) (i : Nat), i < l.length →
    l.getD i 0 ∈ l := by
  intro l
  induction l with
  | nil => intro i h; simp at h
  | cons y ys ih =>
    intro i h
    cases i with
    | zero => simp
    | succ j =>
      rw [List.getD_cons_succ]
      exact List.mem_cons_of_mem y (ih j (by simpa using h))

theorem rank_of_getD : ∀ (l : List Nat), l.Nodup → ∀ i, i < l.length →
    CollectiveMapping.rank_of l (l.getD i 0) = i := by
  intro l
  induction l with
  | nil => intro _ i h; simp at h
  | cons y ys ih =>
    intro hnd i h
    rw [List.nodup_cons] at hnd
    cases i with
    | zero => simp [CollectiveMapping.rank_of]
    | succ j =>
      have hj : j < ys.length := by simpa using h
      rw [List.getD_cons_succ]
      unfold CollectiveMapping.rank_of
      split
      · next he =>
        exact absurd (he ▸ getD_mem_of_lt ys j hj) hnd.1
      · rw [ih hnd.2 j hj]

theorem getD_inj (l : List Nat) (hnd : l.Nodup) (i j : Nat)
    (hi : i < l.length) (hj : j < l.length) (h : l.getD i 0 = l.getD j 0) :
    i = j := by
  have h1 := rank_of_getD l hnd i hi
  have h2 := rank_of_getD l hnd j hj
  rw [← h1, ← h2, h]

namespace CollectiveMapping

theorem find_index_lt (m : CollectiveMapping) (s : Nat)
    (h : s ∈ m.unique_sorted_spaces) : m.find_index s < m.size :=
  rank_of_lt m.unique_sorted_spaces s h

theorem get_index_find_index (m : CollectiveMapping) (s : Nat)
    (h : s ∈ m.unique_sorted_spaces) : m.get_index (m.find_index s) = s :=
  getD_rank_of m.unique_sorted_spaces s h

theorem find_index_get_index (m : CollectiveMapping)
    (hnd : m.unique_sorted_spaces.Nodup) (i : Nat) (hi : i < m.size) :
    m.find_index (m.get_index i) = i :=
  rank_of_getD m.unique_sorted_spaces hnd i hi

theorem get_index_mem (m : CollectiveMapping) (i : Nat) (hi : i < m.size) :
    m.get_index i ∈ m.unique_sorted_spaces :=
  getD_mem_of_lt m.unique_sorted_spaces i hi

theorem get_index_inj (m : CollectiveMapping)
    (hnd : m.unique_sorted_spaces.Nodup) (i j : Nat) (hi : i < m.size)
    (hj : j < m.size) (h : m.get_index i = m.get_index j) : i = j :=
  getD_inj m.unique_sorted_spaces hnd i j hi hj h

/-! ### Offset arithmetic lemmas -/

theorem convert_to_offset_lt (m : CollectiveMapping) (i oi : Nat)
    (hi : i < m.size) (ho : oi < m.size) :
    m.convert_to_offset i oi < m.size := by
  unfold convert_to_offset
  split <;> omega

theorem convert_to_index_lt (m : CollectiveMapping) (off oi : Nat)
    (hof : off < m.size) (ho : oi < m.size) :
    m.convert_to_index off oi < m.size := by
  unfold convert_to_index
  split <;> omega

theorem convert_to_index_offset (m : CollectiveMapping) (i oi : Nat)
    (hi : i < m.size) (ho : oi < m.size) :
    m.convert_to_index (m.convert_to_offset i oi) oi = i := by
  unfold convert_to_index convert_to_offset
  split_ifs <;> omega

theorem convert_to_offset_index (m : CollectiveMapping) (off oi : Nat)
    (hof : off < m.size) (ho : oi < m.size) :
    m.convert_to_offset (m.convert_to_index off oi) oi = off := by
  unfold convert_to_index convert_to_offset
  split_ifs <;> omega

theorem convert_to_offset_eq_zero (m : CollectiveMapping) (i oi : Nat)
    (_hi : i < m.size) (ho : oi < m.size) :
    m.convert_to_offset i oi = 0 ↔ i = oi := by
  unfold convert_to_offset
  split <;> omega

theorem convert_to_index_inj (m : CollectiveMapping) (a b oi : Nat)
    (ha : a < m.size) (hb : b < m.size) (ho : oi < m.size)
    (h : m.convert_to_index a oi = m.convert_to_index b oi) : a = b := by
  have h1 := m.convert_to_offset_index a oi ha ho
  have h2 := m.convert_to_offset_index b oi hb ho
  rw [← h1, ← h2, h]

end CollectiveMapping

/-- Characterization of Nat division by the child-offset interval: for
radix r and offsets c ≥ 1, the parent offset of c is o exactly when c lies
among the r child offsets of o. -/
theorem child_offset_div (r o c : Nat) (hr : 0 < r) (hc : 1 ≤ c) :
    (c - 1) / r = o ↔ r * o < c ∧ c ≤ r * o + r := by
  constructor
  · intro h
    have h1 := Nat.div_add_mod (c - 1) r
    have h2 := Nat.mod_lt (c - 1) hr
    rw [h] at h1
    omega
  · intro h
    have e1 : o * r = r * o := Nat.mul_comm o r
    have e2 : (o + 1) * r = r * o + r := by
      rw [Nat.add_mul, Nat.one_mul, Nat.mul_comm]
    have hle : o ≤ (c - 1) / r := (Nat.le_div_iff_mul_le hr).mpr (by omega)
    have hlt : (c - 1) / r < o + 1 :=
      (Nat.div_lt_iff_lt_mul hr).mpr (by omega)
    omega

/-- Membership in get_children characterized on origin-relative offsets: z
is a child of x exactly when z's offset lies in the radix-wide child window
of x's offset. -/
theorem mem_get_children_iff (m : CollectiveMapping)
    (hnd : m.unique_sorted_spaces.Nodup) (origin x z : Nat)
    (ho : origin ∈ m.unique_sorted_spaces)
    (hx : x ∈ m.unique_sorted_spaces)
    (hz : z ∈ m.unique_sorted_spaces) :
    z ∈ m.get_children origin x ↔
      (m.radix * m.convert_to_offset (m.find_index x) (m.find_index origin)
          < m.convert_to_offset (m.find_index z) (m.find_index origin) ∧
        m.convert_to_offset (m.find_index z) (m.find_index origin)
          ≤ m.radix * m.convert_to_offset (m.find_index x)
              (m.find_index origin) + m.radix) := by
  have hoi := m.find_index_lt origin ho
  have hxi := m.find_index_lt x hx
  have hzi := m.find_index_lt z hz
  unfold CollectiveMapping.get_children
  rw [List.mem_filterMap]
  set oi := m.find_index origin with hoi_def
  set xi := m.find_index x with hxi_def
  set zi := m.find_index z with hzi_def
  set ofx := m.convert_to_offset xi oi with hofx_def
  set ofz := m.convert_to_offset zi oi with hofz_def
  have hofz_lt : ofz < m.size := m.convert_to_offset_lt zi oi hzi hoi
  constructor
  · rintro ⟨idx, hidx, hz'⟩
    rw [List.mem_range] at hidx
    split at hz'
    · next hc =>
      rw [Option.some.injEq] at hz'
      have hcti := m.convert_to_index_lt (m.radix * ofx + idx + 1) oi hc hoi
      have hzeq : m.convert_to_index (m.radix * ofx + idx + 1) oi = zi := by
        apply m.get_index_inj hnd _ _ hcti hzi
        rw [hz', hzi_def, m.get_index_find_index z hz]
      have h2 := m.convert_to_offset_index (m.radix * ofx + idx + 1) oi hc hoi
      rw [hzeq] at h2
      rw [← hofz_def] at h2
      omega
    · simp at hz'
  · rintro ⟨h1, h2⟩
    refine ⟨ofz - m.radix * ofx - 1, ?_, ?_⟩
    · rw [List.mem_range]
      omega
    · have hc : m.radix * ofx + (ofz - m.radix * ofx - 1) + 1 = ofz := by
        omega
      rw [hc, if_pos hofz_lt, Option.some.injEq, hofz_def,
        m.convert_to_index_offset zi oi hzi hoi, hzi_def,
        m.get_index_find_index z hz]

/-- get_parent characterized on origin-relative offsets: the parent of y is
x exactly when x's offset is the parent slot (offset-1)/radix of y's
offset. -/
theorem get_parent_eq_iff (m : CollectiveMapping)
    (hnd : m.unique_sorted_spaces.Nodup) (origin x y : Nat)
    (ho : origin ∈ m.unique_sorted_spaces)
    (hx : x ∈ m.unique_sorted_spaces)
    (hy : y ∈ m.unique_sorted_spaces) :
    m.get_parent origin y = x ↔
      (m.convert_to_offset (m.find_index y) (m.find_index origin) - 1)
          / m.radix
        = m.convert_to_offset (m.find_index x) (m.find_index origin) := by
  have hoi := m.find_index_lt origin ho
  have hxi := m.find_index_lt x hx
  have hyi := m.find_index_lt y hy
  unfold CollectiveMapping.get_parent
  set oi := m.find_index origin with hoi_def
  set xi := m.find_index x with hxi_def
  set yi := m.find_index y with hyi_def
  set ofy := m.convert_to_offset yi oi with hofy_def
  set ofx := m.convert_to_offset xi oi with hofx_def
  have hofy_lt : ofy < m.size := m.convert_to_offset_lt yi oi hyi hoi
  have hdiv_lt : (ofy - 1) / m.radix < m.size :=
    lt_of_le_of_lt (Nat.div_le_self (ofy - 1) m.radix) (by omega)
  constructor
  · intro h
    have hcti := m.convert_to_index_lt ((ofy - 1) / m.radix) oi hdiv_lt hoi
    have hxeq : m.convert_to_index ((ofy - 1) / m.radix) oi = xi := by
      apply m.get_index_inj hnd _ _ hcti hxi
      rw [h, hxi_def, m.get_index_find_index x hx]
    have h2 := m.convert_to_offset_index ((ofy - 1) / m.radix) oi hdiv_lt hoi
    rw [hxeq] at h2
    rw [← hofx_def] at h2
    exact h2.symm
  · intro h
    rw [h, hofx_def, m.convert_to_index_offset xi oi hxi hoi, hxi_def,
      m.get_index_find_index x hx]

/-- The parent computed by get_parent is always a member of the mapping. -/
theorem get_parent_mem (m : CollectiveMapping) (origin y : Nat)
    (ho : origin ∈ m.unique_sorted_spaces)
    (hy : y ∈ m.unique_sorted_spaces) :
    m.get_parent origin y ∈ m.unique_sorted_spaces := by
  have hoi := m.find_index_lt origin ho
  have hyi := m.find_index_lt y hy
  have hofy_lt :
      m.convert_to_offset (m.find_index y) (m.find_index origin) < m.size :=
    m.convert_to_offset_lt _ _ hyi hoi
  unfold CollectiveMapping.get_parent
  apply m.get_index_mem
  apply m.convert_to_index_lt _ _ _ hoi
  exact lt_of_le_of_lt (Nat.div_le_self _ m.radix) (by omega)

/-- Claim C1: for every CollectiveMapping over a sorted deduplicated node
set with radix at least 2, and members origin, x, y with y distinct from
origin: y is a child of x exactly when x is the parent of y (rooted at
origin); the parent is itself a member; origin is nobody's child; every
child list consists of members without duplicates; and y is a child of
exactly one member — so the union of the child lists plus origin covers
the member set exactly once. -/
theorem C1_children_inverse_of_parent_spanning (m : CollectiveMapping)
    (hs : m.wf) (hr : 2 ≤ m.radix) (origin x y : Nat)
    (ho : origin ∈ m.unique_sorted_spaces)
    (hx : x ∈ m.unique_sorted_spaces)
    (hy : y ∈ m.unique_sorted_spaces)
    (hyo : y ≠ origin) :
    (y ∈ m.get_children origin x ↔ m.get_parent origin y = x) ∧
    m.get_parent origin y ∈ m.unique_sorted_spaces ∧
    origin ∉ m.get_children origin x ∧
    (∀ z ∈ m.get_children origin x, z ∈ m.unique_sorted_spaces) ∧
    (m.get_children origin x).Nodup ∧
    (∃! p, p ∈ m.unique_sorted_spaces ∧ y ∈ m.get_children origin p) := by
  have hsorted : m.unique_sorted_spaces.Sorted (· < ·) := hs
  have hnd : m.unique_sorted_spaces.Nodup := hsorted.nodup
  have hoi := m.find_index_lt origin ho
  have hyi := m.find_index_lt y hy
  have hrpos : 0 < m.radix := by omega
  have hofy_pos :
      1 ≤ m.convert_to_offset (m.find_index y) (m.find_index origin) := by
    have hzero := m.convert_to_offset_eq_zero (m.find_index y)
      (m.find_index origin) hyi hoi
    rcases Nat.eq_zero_or_pos
        (m.convert_to_offset (m.find_index y) (m.find_index origin)) with
      h0 | h0
    · exfalso
      apply hyo
      have hidx : m.find_index y = m.find_index origin := hzero.mp h0
      have := m.get_index_find_index y hy
      rw [hidx, m.get_index_find_index origin ho] at this
      exact this.symm
    · exact h0
  have hmain : ∀ x', x' ∈ m.unique_sorted_spaces →
      (y ∈ m.get_children origin x' ↔ m.get_parent origin y = x') := by
    intro x' hx'
    rw [mem_get_children_iff m hnd origin x' y ho hx' hy,
      get_parent_eq_iff m hnd origin x' y ho hx' hy]
    exact (child_offset_div m.radix
      (m.convert_to_offset (m.find_index x') (m.find_index origin))
      (m.convert_to_offset (m.find_index y) (m.find_index origin))
      hrpos hofy_pos).symm
  refine ⟨hmain x hx, get_parent_mem m origin y ho hy, ?_, ?_, ?_, ?_⟩
  · rw [mem_get_children_iff m hnd origin x origin ho hx ho]
    have h0 : m.convert_to_offset (m.find_index origin)
        (m.find_index origin) = 0 := by
      unfold CollectiveMapping.convert_to_offset
      split <;> omega
    rw [h0]
    rintro ⟨h1, _⟩
    omega
  · intro z hzc
    unfold CollectiveMapping.get_children at hzc
    rw [List.mem_filterMap] at hzc
    obtain ⟨idx, _, hzopt⟩ := hzc
    split at hzopt
    · next hc =>
      rw [Option.some.injEq] at hzopt
      rw [← hzopt]
      exact m.get_index_mem _ (m.convert_to_index_lt _ _ hc hoi)
    · simp at hzopt
  · unfold CollectiveMapping.get_children
    apply List.Nodup.filterMap _ (List.nodup_range m.radix)
    intro a a' b hb hb'
    split at hb
    · next hc =>
      split at hb'
      · next hc' =>
        rw [Option.mem_def, Option.some.injEq] at hb hb'
        have heq : m.convert_to_index
            (m.radix * m.convert_to_offset (m.find_index x)
              (m.find_index origin) + a + 1) (m.find_index origin) =
              m.convert_to_index
            (m.radix * m.convert_to_offset (m.find_index x)
              (m.find_index origin) + a' + 1) (m.find_index origin) := by
          apply m.get_index_inj hnd _ _
            (m.convert_to_index_lt _ _ hc hoi)
            (m.convert_to_index_lt _ _ hc' hoi)
          rw [hb, hb']
        have := m.convert_to_index_inj _ _ _ hc hc' hoi heq
        omega
      · simp at hb'
    · simp at hb
  · refine ⟨m.get_parent origin y,
      ⟨get_parent_mem m origin y ho hy,
        (hmain _ (get_parent_mem m origin y ho hy)).mpr rfl⟩, ?_⟩
    rintro q ⟨hq, hqy⟩
    exact ((hmain q hq).mp hqy).symm

/-- Witness for C1 on the spec's end-to-end scenario: nodes 2, 5, 7 with
radix 2 rooted at origin 5, with x = 2 and y = 7. -/
theorem C1_children_inverse_of_parent_spanning_witness :
    ((7 : Nat) ∈ CollectiveMapping.get_children ⟨[2, 5, 7], 2⟩ 5 2 ↔
      CollectiveMapping.get_parent ⟨[2, 5, 7], 2⟩ 5 7 = 2) ∧
    CollectiveMapping.get_parent ⟨[2, 5, 7], 2⟩ 5 7 ∈ [2, 5, 7] ∧
    (5 : Nat) ∉ CollectiveMapping.get_children ⟨[2, 5, 7], 2⟩ 5 2 ∧
    (∀ z ∈ CollectiveMapping.get_children ⟨[2, 5, 7], 2⟩ 5 2,
      z ∈ [2, 5, 7]) ∧
    (CollectiveMapping.get_children ⟨[2, 5, 7], 2⟩ 5 2).Nodup ∧
    (∃! p, p ∈ [2, 5, 7] ∧
      (7 : Nat) ∈ CollectiveMapping.get_children ⟨[2, 5, 7], 2⟩ 5 p) :=
  C1_children_inverse_of_parent_spanning ⟨[2, 5, 7], 2⟩ (by decide)
    (by decide) 5 2 7 (by decide) (by decide) (by decide) (by decide)

/-! ### Rendezvous protocol lemmas -/

/-- The closed form at zero arrivals is the empty state. -/
theorem rendezvous_state_after_zero (k : RendezvousKey) (eL eR : Nat) :
    rendezvous_state_after k eL eR 0 0 = rendezvous_init := by
  unfold rendezvous_state_after
  rw [if_pos ⟨rfl, rfl⟩]

/-- The closed form strictly between the first and the last arrival is a
single accumulated record. -/
theorem rendezvous_state_after_mid (k : RendezvousKey) (eL eR a b : Nat)
    (h0 : ¬(a = 0 ∧ b = 0)) (h1 : ¬(a = eL ∧ b = eR)) :
    rendezvous_state_after k eL eR a b =
      { rendezvous_users := [(k,
          { remaining_local_arrivals := eL - a,
            remaining_remote_arrivals := eR - b })],
        fired_events := [] } := by
  unfold rendezvous_state_after
  rw [if_neg h0, if_neg h1]

/-- Computation of register_user on the empty state: the record is created
with the expected counts, decremented for this local arrival, and
finalized at once when nothing else is expected. -/
theorem register_user_empty_local (k : RendezvousKey) (eL eR : Nat) :
    register_user rendezvous_init k eL eR true =
      if eL - 1 = 0 ∧ eR = 0 then (⟨[], [k]⟩ : RendezvousState)
      else ⟨[(k, ⟨eL - 1, eR⟩)], []⟩ := by
  simp [register_user, rendezvous_init, rendezvous_find, rendezvous_update,
    rendezvous_erase]

/-- Computation of register_user on the empty state for a remote
arrival. -/
theorem register_user_empty_remote (k : RendezvousKey) (eL eR : Nat) :
    register_user rendezvous_init k eL eR false =
      if eL = 0 ∧ eR - 1 = 0 then (⟨[], [k]⟩ : RendezvousState)
      else ⟨[(k, ⟨eL, eR - 1⟩)], []⟩ := by
  simp [register_user, rendezvous_init, rendezvous_find, rendezvous_update,
    rendezvous_erase]

/-- Computation of register_user on a state holding exactly the one record
for the key: it accumulates into that record, finalizing (firing and
erasing) when both counters reach zero. -/
theorem register_user_single_local (k : RendezvousKey) (rl rr eL eR : Nat) :
    register_user ⟨[(k, ⟨rl, rr⟩)], []⟩ k eL eR true =
      if rl - 1 = 0 ∧ rr = 0 then (⟨[], [k]⟩ : RendezvousState)
      else ⟨[(k, ⟨rl - 1, rr⟩)], []⟩ := by
  simp [register_user, rendezvous_find, rendezvous_update, rendezvous_erase]

/-- Computation of register_user on a state holding exactly the one record
for the key, for a remote arrival. -/
theorem register_user_single_remote (k : RendezvousKey) (rl rr eL eR : Nat) :
    register_user ⟨[(k, ⟨rl, rr⟩)], []⟩ k eL eR false =
      if rl = 0 ∧ rr - 1 = 0 then (⟨[], [k]⟩ : RendezvousState)
      else ⟨[(k, ⟨rl, rr - 1⟩)], []⟩ := by
  simp [register_user, rendezvous_find, rendezvous_update, rendezvous_erase]

/-- A local arrival advances the rendezvous state from the closed form for
(locals, remotes) arrivals to the closed form for (locals+1, remotes). -/
theorem register_user_local_step (k : RendezvousKey) (eL eR a b : Nat)
    (ha : a < eL) (hb : b ≤ eR) :
    register_user (rendezvous_state_after k eL eR a b) k eL eR true
      = rendezvous_state_after k eL eR (a + 1) b := by
  by_cases h0 : a = 0 ∧ b = 0
  · obtain ⟨rfl, rfl⟩ := h0
    rw [rendezvous_state_after_zero, register_user_empty_local]
    unfold rendezvous_state_after
    split_ifs <;>
      first
        | rfl
        | (exfalso; omega)
        | tauto
  · have h1 : ¬(a = eL ∧ b = eR) := by omega
    rw [rendezvous_state_after_mid k eL eR a b h0 h1,
      register_user_single_local]
    unfold rendezvous_state_after
    split_ifs <;>
      first
        | rfl
        | (exfalso; omega)
        | tauto

/-- A remote arrival advances the rendezvous state from the closed form for
(locals, remotes) arrivals to the closed form for (locals, remotes+1). -/
theorem register_user_remote_step (k : RendezvousKey) (eL eR a b : Nat)
    (ha : a ≤ eL) (hb : b < eR) :
    register_user (rendezvous_state_after k eL eR a b) k eL eR false
      = rendezvous_state_after k eL eR a (b + 1) := by
  by_cases h0 : a = 0 ∧ b = 0
  · obtain ⟨rfl, rfl⟩ := h0
    rw [rendezvous_state_after_zero, register_user_empty_remote]
    unfold rendezvous_state_after
    split_ifs <;>
      first
        | rfl
        | (exfalso; omega)
        | tauto
  · have h1 : ¬(a = eL ∧ b = eR) := by omega
    rw [rendezvous_state_after_mid k eL eR a b h0 h1,
      register_user_single_remote]
    unfold rendezvous_state_after
    split_ifs <;>
      first
        | rfl
        | (exfalso; omega)
        | tauto

/-- Unfolding one arrival of register_users. -/
theorem register_users_cons (s : RendezvousState) (k : RendezvousKey)
    (eL eR : Nat) (x : Bool) (xs : List Bool) :
    register_users s k eL eR (x :: xs)
      = register_users (register_user s k eL eR x) k eL eR xs := rfl

/-- On Bool lists the counts of true and false sum to the length. -/
theorem count_bool_length (l : List Bool) :
    l.count true + l.count false = l.length := by
  induction l with
  | nil => rfl
  | cons x xs ih => cases x <;> simp [List.count_cons] <;> omega

/-- Running any sequence of arrivals from the closed-form state reaches the
closed-form state for the accumulated arrival counts, as long as the totals
do not exceed the expected ones. -/
theorem register_users_closed_form :
    ∀ (p : List Bool) (k : RendezvousKey) (eL eR a b : Nat),
      a + p.count true ≤ eL → b + p.count false ≤ eR →
      register_users (rendezvous_state_after k eL eR a b) k eL eR p
        = rendezvous_state_after k eL eR (a + p.count true)
            (b + p.count false) := by
  intro p
  induction p with
  | nil =>
    intro k eL eR a b _ _
    simp [register_users]
  | cons x xs ih =>
    intro k eL eR a b hT hF
    cases x
    · have e1 : (false :: xs).count true = xs.count true := by simp
      have e2 : (false :: xs).count false = xs.count false + 1 := by simp
      rw [e1] at hT
      rw [e2] at hF
      rw [register_users_cons,
        register_user_remote_step k eL eR a b (by omega) (by omega),
        ih k eL eR a (b + 1) (by omega) (by omega), e1, e2]
      have e3 : b + 1 + xs.count false = b + (xs.count false + 1) := by
        omega
      rw [e3]
    · have e1 : (true :: xs).count true = xs.count true + 1 := by simp
      have e2 : (true :: xs).count false = xs.count false := by simp
      rw [e1] at hT
      rw [e2] at hF
      rw [register_users_cons,
        register_user_local_step k eL eR a b (by omega) (by omega),
        ih k eL eR (a + 1) b (by omega) (by omega), e1, e2]
      have e3 : a + 1 + xs.count true = a + (xs.count true + 1) := by
        omega
      rw [e3]

/-- Claim C2: for a rendezvous key expecting eL local and eR remote
arrivals (at least one in total), run against any interleaving of exactly
those arrivals starting from the empty map: at every point at most one
record exists for the key; strictly between the first and last arrival the
map holds exactly the one accumulated record (with the remaining counters
decremented by the arrivals so far) and no events have fired; and after
exactly the N = eL + eR registrations the record has been removed and the
ready/registered events have fired exactly once. -/
theorem C2_rendezvous_record_unique_fires_once (k : RendezvousKey)
    (eL eR : Nat) (arrivals : List Bool)
    (hT : arrivals.count true = eL) (hF : arrivals.count false = eR)
    (hpos : 1 ≤ eL + eR) :
    (∀ i ≤ arrivals.length,
      ((register_users rendezvous_init k eL eR (arrivals.take i)
         ).rendezvous_users.countP (fun e => e.1 == k)) ≤ 1) ∧
    (∀ i, 1 ≤ i → i < arrivals.length →
      (register_users rendezvous_init k eL eR
          (arrivals.take i)).rendezvous_users
        = [(k, ⟨eL - (arrivals.take i).count true,
                eR - (arrivals.take i).count false⟩)] ∧
      (register_users rendezvous_init k eL eR
          (arrivals.take i)).fired_events = []) ∧
    (register_users rendezvous_init k eL eR arrivals).rendezvous_users
      = [] ∧
    (register_users rendezvous_init k eL eR arrivals).fired_events.count k
      = 1 := by
  have hlen : arrivals.length = eL + eR := by
    have := count_bool_length arrivals
    omega
  have hrun : ∀ i, register_users rendezvous_init k eL eR (arrivals.take i)
      = rendezvous_state_after k eL eR ((arrivals.take i).count true)
          ((arrivals.take i).count false) := by
    intro i
    have h1 : (arrivals.take i).count true ≤ eL := by
      have := (List.take_sublist i arrivals).count_le true
      omega
    have h2 : (arrivals.take i).count false ≤ eR := by
      have := (List.take_sublist i arrivals).count_le false
      omega
    have := register_users_closed_form (arrivals.take i) k eL eR 0 0
      (by omega) (by omega)
    rw [rendezvous_state_after_zero] at this
    simpa using this
  have htakelen : ∀ i, i ≤ arrivals.length →
      (arrivals.take i).count true + (arrivals.take i).count false = i := by
    intro i hi
    have := count_bool_length (arrivals.take i)
    rw [List.length_take] at this
    omega
  refine ⟨?_, ?_, ?_, ?_⟩
  · intro i _
    rw [hrun i]
    unfold rendezvous_state_after
    split_ifs <;> simp [rendezvous_init]
  · intro i h1 h2
    rw [hrun i]
    rw [rendezvous_state_after_mid k eL eR _ _ ?_ ?_]
    · exact ⟨rfl, rfl⟩
    · have := htakelen i (by omega)
      omega
    · have := htakelen i (by omega)
      omega
  · have h := hrun arrivals.length
    rw [List.take_length, hT, hF] at h
    rw [h]
    unfold rendezvous_state_after
    rw [if_neg (by omega), if_pos ⟨rfl, rfl⟩]
  · have h := hrun arrivals.length
    rw [List.take_length, hT, hF] at h
    rw [h]
    unfold rendezvous_state_after
    rw [if_neg (by omega), if_pos ⟨rfl, rfl⟩]
    simp

/-- Witness for C2: key (1,2,3), one expected local and one expected remote
arrival, arriving local-then-remote. -/
theorem C2_rendezvous_record_unique_fires_once_witness :
    (∀ i ≤ ([true, false] : List Bool).length,
      ((register_users rendezvous_init ⟨1, 2, 3⟩ 1 1
          (([true, false] : List Bool).take i)
         ).rendezvous_users.countP (fun e => e.1 == ⟨1, 2, 3⟩)) ≤ 1) ∧
    (∀ i, 1 ≤ i → i < ([true, false] : List Bool).length →
      (register_users rendezvous_init ⟨1, 2, 3⟩ 1 1
          (([true, false] : List Bool).take i)).rendezvous_users
        = [(⟨1, 2, 3⟩, ⟨1 - (([true, false] : List Bool).take i).count true,
                1 - (([true, false] : List Bool).take i).count false⟩)] ∧
      (register_users rendezvous_init ⟨1, 2, 3⟩ 1 1
          (([true, false] : List Bool).take i)).fired_events = []) ∧
    (register_users rendezvous_init ⟨1, 2, 3⟩ 1 1
      [true, false]).rendezvous_users = [] ∧
    (register_users rendezvous_init ⟨1, 2, 3⟩ 1 1
      [true, false]).fired_events.count ⟨1, 2, 3⟩ = 1 :=
  C2_rendezvous_record_unique_fires_once ⟨1, 2, 3⟩ 1 1 [true, false]
    (by decide) (by decide) (by decide)

end Legion
